import Mathlib

/-
Verification of the Kripke-model / modal-logic evaluator core
(the KripkeModel class, the Formula tree and the recursive
evaluate_formula function of kripke_model.py).

Python sets are embedded as duplicate-free lists (membership is what
matters; an insertion order is fixed where the source iterates over a
set), Python dicts as association lists looked up by first match, and
raised exceptions as an explicit error type.
-/

/-- Error taxonomy for the operations that raise: ValueError on a missing
world or relation, KeyError from the `del` statement, and the two
ValueError messages of evaluate_formula. -/
inductive KError where
  | notFound
  | keyError
  | invalidModel
  | unknownWorld
deriving DecidableEq

/-- Formula tree: the seven variants Prop, Not, And, Or, Implies, Box,
Diamond of the source. -/
inductive Formula where
  | prop (name : String)
  | not (operand : Formula)
  | and (left right : Formula)
  | or (left right : Formula)
  | implies (left right : Formula)
  | box (operand : Formula)
  | diamond (operand : Formula)
deriving DecidableEq

/-- The KripkeModel state: worlds W, relation R, valuation V and the
default valuation flag. -/
structure KripkeModel where
  W : List String
  R : List (String × String)
  V : List (String × List (String × Bool))
  default_valuation : Bool
deriving DecidableEq

/-- The structured snapshot produced by to_dict and consumed by
from_dict; the default_valuation field is optional (absent = none). -/
structure Snapshot where
  W : List String
  R : List (String × String)
  V : List (String × List (String × Bool))
  default_valuation : Option Bool
deriving DecidableEq

deriving instance DecidableEq for Except

/-- Python set(iterable): inserts each element in order, skipping ones
already present. -/
def pySet {α : Type} [BEq α] (l : List α) : List α :=
  l.foldl (fun acc x => if acc.contains x then acc else acc ++ [x]) []

/-- Python dict.get(key): the value of the first entry with the given
key, if any. -/
def dict_get {α : Type} (d : List (String × α)) (key : String) : Option α :=
  (d.find? (fun e => e.1 == key)).map Prod.snd

/-- KripkeModel.validate_model: every relation endpoint and every
valuation key must be a member of W. -/
def validate_model (m : KripkeModel) : Bool :=
  m.R.all (fun p => m.W.contains p.1 && m.W.contains p.2) &&
  (m.V.map Prod.fst).all (fun w => m.W.contains w)

/-- KripkeModel.get_accessible_worlds: the targets of the relation pairs
whose source is the given world. -/
def get_accessible_worlds (m : KripkeModel) (world : String) : List String :=
  (m.R.filter (fun p => p.1 == world)).map Prod.snd

/-- KripkeModel.get_valuation: V.get(world, default empty dict), then
.get(prop, default the model flag). Total, never raises. -/
def get_valuation (m : KripkeModel) (world prop : String) : Bool :=
  (dict_get ((dict_get m.V world).getD []) prop).getD m.default_valuation

/-- KripkeModel.remove_world, with the state left behind made explicit:
checks membership in W; then removes from W, filters R, and finally
performs `del V[world]`, which raises KeyError when the key is absent
(leaving W and R already mutated). -/
def remove_world (m : KripkeModel) (world : String) : KripkeModel × Option KError :=
  if !m.W.contains world then (m, some .notFound)
  else
    let W2 := m.W.filter (fun x => x != world)
    let R2 := m.R.filter (fun p => p.1 != world && p.2 != world)
    if (dict_get m.V world).isSome then
      ({ m with W := W2, R := R2, V := m.V.filter (fun e => e.1 != world) }, none)
    else
      ({ m with W := W2, R := R2 }, some .keyError)

/-- Loop body of make_relation_symmetric: iterate over the snapshot
list(self.R), adding each reversed pair not already present. -/
def symLoop : List (String × String) → List (String × String) → List (String × String)
  | [], cur => cur
  | (w1, w2) :: snap, cur =>
      symLoop snap (if cur.contains (w2, w1) then cur else cur ++ [(w2, w1)])

/-- KripkeModel.make_relation_symmetric. -/
def make_relation_symmetric (m : KripkeModel) : KripkeModel :=
  { m with R := symLoop m.R m.R }

/-- Inner loop of make_relation_transitive: for a fixed outer pair
(w1, w2), iterate over the snapshot taken at inner-loop entry, checking
and adding against the current relation. -/
def transInner (w1 w2 : String) :
    List (String × String) → List (String × String) → Bool →
    List (String × String) × Bool
  | [], cur, changed => (cur, changed)
  | (w3, w4) :: snap, cur, changed =>
      if w2 == w3 && !cur.contains (w1, w4) then
        transInner w1 w2 snap (cur ++ [(w1, w4)]) true
      else
        transInner w1 w2 snap cur changed

/-- Outer loop of one pass of make_relation_transitive: iterate over the
pass-start snapshot; each inner loop re-snapshots the current relation. -/
def transOuter : List (String × String) → List (String × String) → Bool →
    List (String × String) × Bool
  | [], cur, changed => (cur, changed)
  | (w1, w2) :: snap, cur, changed =>
      let r := transInner w1 w2 cur cur changed
      transOuter snap r.1 r.2

/-- The while-changed loop of make_relation_transitive, with explicit
fuel (the source terminates because the pair universe is finite). -/
def transLoop : Nat → List (String × String) → List (String × String)
  | 0, cur => cur
  | fuel + 1, cur =>
      let r := transOuter cur cur false
      if r.2 then transLoop fuel r.1 else r.1

/-- KripkeModel.make_relation_transitive: fixed-point iteration; the
fuel |R|^2 + 1 exceeds the number of passes that can add a pair. -/
def make_relation_transitive (m : KripkeModel) : KripkeModel :=
  { m with R := transLoop (m.R.length * m.R.length + 1) m.R }

/-- One expansion step of is_world_reachable: scan the relation, pushing
every unvisited successor of `current` and marking it visited. -/
def reachExpand (R : List (String × String)) (current : String) (steps : Nat)
    (stack : List (String × Nat)) (visited : List String) :
    List (String × Nat) × List String :=
  R.foldl (fun acc p =>
    if p.1 == current && !acc.2.contains p.2 then
      ((p.2, steps + 1) :: acc.1, p.2 :: acc.2)
    else acc) (stack, visited)

/-- The while-stack loop of is_world_reachable, with explicit fuel; the
head of the list is the top of the stack. -/
def reachLoop (R : List (String × String)) (target : String) (maxSteps : Nat) :
    Nat → List (String × Nat) → List String → Bool
  | 0, _, _ => false
  | _ + 1, [], _ => false
  | fuel + 1, (current, steps) :: rest, visited =>
      if current == target then true
      else if maxSteps ≤ steps then reachLoop R target maxSteps fuel rest visited
      else
        let p := reachExpand R current steps rest visited
        reachLoop R target maxSteps fuel p.1 p.2

/-- KripkeModel.is_world_reachable: each pushed node is marked visited,
so at most |R| + 1 stack entries ever exist; fuel |R| + 2 suffices. -/
def is_world_reachable (m : KripkeModel) (start target : String)
    (maxSteps : Nat) : Bool :=
  reachLoop m.R target maxSteps (m.R.length + 2) [(start, 0)] []

/-- KripkeModel.to_dict. -/
def to_dict (m : KripkeModel) : Snapshot :=
  { W := m.W, R := m.R, V := m.V, default_valuation := some m.default_valuation }

/-- KripkeModel.from_dict: W and R are rebuilt as sets, V is taken as
given, and a missing default_valuation field defaults to false. -/
def from_dict (d : Snapshot) : KripkeModel :=
  { W := pySet d.W, R := pySet d.R, V := d.V,
    default_valuation := d.default_valuation.getD false }

/-- Helper for the Box case of evaluate_formula: Python all() over a
generator, stopping at the first false; errors of later worlds after a
false are not raised. -/
def evalBoxAux (g : String → Except KError Bool) : List String → Except KError Bool
  | [] => .ok true
  | w :: ws => do
      let b ← g w
      if b then evalBoxAux g ws else .ok false

/-- Helper for the Diamond case of evaluate_formula: Python any() over a
generator, stopping at the first true. -/
def evalDiamondAux (g : String → Except KError Bool) : List String → Except KError Bool
  | [] => .ok false
  | w :: ws => do
      let b ← g w
      if b then .ok true else evalDiamondAux g ws

/-- The recursive evaluate_formula: validates the model and the world on
every call (including recursive ones), then dispatches on the formula
shape; `and`/`or` short-circuit exactly as the Python connectives do. -/
def evaluate_formula (m : KripkeModel) (f : Formula) (w : String) :
    Except KError Bool :=
  if !validate_model m then .error .invalidModel
  else if !m.W.contains w then .error .unknownWorld
  else
    match f with
    | .prop p => .ok (get_valuation m w p)
    | .not φ => (evaluate_formula m φ w).map (fun b => !b)
    | .and φ ψ => do
        let a ← evaluate_formula m φ w
        if a then evaluate_formula m ψ w else .ok false
    | .or φ ψ => do
        let a ← evaluate_formula m φ w
        if a then .ok true else evaluate_formula m ψ w
    | .implies φ ψ => do
        let a ← evaluate_formula m φ w
        if !a then .ok true else evaluate_formula m ψ w
    | .box φ => evalBoxAux (fun x => evaluate_formula m φ x) (get_accessible_worlds m w)
    | .diamond φ => evalDiamondAux (fun x => evaluate_formula m φ x) (get_accessible_worlds m w)
termination_by sizeOf f
decreasing_by all_goals simp_wf <;> omega

/-- Standard Kripke satisfaction, written from the specification clauses
(truth-functional connectives; Box true at w iff the operand holds at
every accessible world, Diamond iff at some accessible world). Used as
the reference against which evaluate_formula is compared. -/
def kripkeSat (m : KripkeModel) (f : Formula) (w : String) : Bool :=
  match f with
  | .prop p => get_valuation m w p
  | .not φ => !kripkeSat m φ w
  | .and φ ψ => kripkeSat m φ w && kripkeSat m ψ w
  | .or φ ψ => kripkeSat m φ w || kripkeSat m ψ w
  | .implies φ ψ => !kripkeSat m φ w || kripkeSat m ψ w
  | .box φ => (get_accessible_worlds m w).all (fun x => kripkeSat m φ x)
  | .diamond φ => (get_accessible_worlds m w).any (fun x => kripkeSat m φ x)
termination_by sizeOf f
decreasing_by all_goals simp_wf <;> omega

/-- The dict comprehension of evaluate_formula_in_all_worlds, iterating
over the given list of worlds; the first raised error propagates. -/
def evalWorldsList (m : KripkeModel) (f : Formula) :
    List String → Except KError (List (String × Bool))
  | [] => .ok []
  | w :: ws => do
      let b ← evaluate_formula m f w
      let rest ← evalWorldsList m f ws
      .ok ((w, b) :: rest)

/-- evaluate_formula_in_all_worlds: one entry per world of W. -/
def evaluate_formula_in_all_worlds (m : KripkeModel) (f : Formula) :
    Except KError (List (String × Bool)) :=
  evalWorldsList m f m.W

/-- The sample model of the main program: worlds w1, w2, w3, relation
w1→w2, w2→w3 plus the reflexive closure, and the p, q valuations. -/
def mEx : KripkeModel :=
  { W := ["w1", "w2", "w3"],
    R := [("w1", "w2"), ("w2", "w3"), ("w1", "w1"), ("w2", "w2"), ("w3", "w3")],
    V := [("w1", [("p", true), ("q", false)]),
          ("w2", [("p", false), ("q", true)]),
          ("w3", [("p", true), ("q", true)])],
    default_valuation := false }

/-- An invalid model (a relation pair with endpoints outside W),
reachable through from_dict, which copies fields without validation. -/
def mInvalid : KripkeModel :=
  { W := [], R := [("a", "b")], V := [], default_valuation := false }

/-- A model whose every world has a valuation entry, as add_world
guarantees. -/
def mKeyed : KripkeModel :=
  { W := ["a", "b"], R := [("a", "b"), ("b", "a")],
    V := [("a", []), ("b", [])], default_valuation := false }

/-- A model loaded from a snapshot whose V lacks an entry for the world
listed in W: from_dict performs no synchronisation between W and V. -/
def mNoVal : KripkeModel :=
  from_dict { W := ["a"], R := [("a", "a")], V := [], default_valuation := none }

/-- A model loaded from a snapshot whose relation mentions worlds absent
from W. -/
def mForeign : KripkeModel :=
  from_dict { W := [], R := [("a", "b")], V := [], default_valuation := none }

/-- A model on which the bounded search of is_world_reachable first
reaches b through the three-step path s→u→v→b, marking b visited at a
depth where the budget is exhausted, so the two-step route via w can no
longer expand b even though s→w→b→t uses only three hops. -/
def mReachBug : KripkeModel :=
  { W := ["s", "u", "v", "w", "b", "t"],
    R := [("s", "w"), ("s", "u"), ("u", "v"), ("v", "b"), ("w", "b"), ("b", "t")],
    V := [], default_valuation := false }

/-- A chain model used to exercise the transitive closure. -/
def mTrans : KripkeModel :=
  { W := ["a", "b", "c"], R := [("a", "b"), ("b", "c")], V := [],
    default_valuation := false }

/-- Bind on Except applied to a success, reduced. -/
theorem except_bind_ok {α β : Type} (a : α) (f : α → Except KError β) :
    (Except.ok a >>= f : Except KError β) = f a := rfl

/-- Bind on Except applied to an error, reduced. -/
theorem except_bind_err {α β : Type} (e : KError) (f : α → Except KError β) :
    (Except.error e >>= f : Except KError β) = Except.error e := rfl

/-- List.contains agrees with membership. -/
theorem list_contains_iff {α : Type} [BEq α] [LawfulBEq α] (l : List α) (x : α) :
    l.contains x = true ↔ x ∈ l := by
  simp [List.contains, List.elem_iff]

/-- Membership in the fold underlying pySet. -/
theorem pySet_foldl_mem {α : Type} [BEq α] [LawfulBEq α] (x : α) (l : List α) :
    ∀ acc : List α,
      (x ∈ l.foldl (fun a y => if a.contains y then a else a ++ [y]) acc ↔
        x ∈ acc ∨ x ∈ l) := by
  induction l with
  | nil => intro acc; simp
  | cons y l ih =>
      intro acc
      rw [List.foldl_cons, ih]
      by_cases h : acc.contains y = true
      · rw [if_pos h]
        have hy : y ∈ acc := (list_contains_iff acc y).mp h
        simp only [List.mem_cons]
        constructor
        · rintro (h1 | h2)
          · exact Or.inl h1
          · exact Or.inr (Or.inr h2)
        · rintro (h1 | h2 | h3)
          · exact Or.inl h1
          · exact Or.inl (h2 ▸ hy)
          · exact Or.inr h3
      · rw [if_neg h]
        simp only [List.mem_append, List.mem_singleton, List.mem_cons]
        tauto

/-- pySet preserves membership. -/
theorem pySet_mem {α : Type} [BEq α] [LawfulBEq α] (l : List α) (x : α) :
    x ∈ pySet l ↔ x ∈ l := by
  simpa [pySet] using pySet_foldl_mem x l []

/-- C7: get_valuation is total and lenient: it returns the stored value
when the (world, prop) entry exists, and the model's default valuation
when the world is unknown or the proposition is unset; being a total
Lean function of the model it neither raises nor mutates. -/
theorem get_valuation_lenient (m : KripkeModel) (world prop : String) :
    (∀ props v, dict_get m.V world = some props → dict_get props prop = some v →
      get_valuation m world prop = v) ∧
    (dict_get m.V world = none →
      get_valuation m world prop = m.default_valuation) ∧
    (∀ props, dict_get m.V world = some props → dict_get props prop = none →
      get_valuation m world prop = m.default_valuation) := by
  refine ⟨?_, ?_, ?_⟩
  · intro props v h1 h2
    simp [get_valuation, h1, h2]
  · intro h
    simp only [get_valuation]
    rw [h]
    simp [dict_get]
  · intro props h1 h2
    simp [get_valuation, h1, h2]

theorem get_valuation_lenient_app :
    dict_get mEx.V "zz" = none ∧
    get_valuation mEx "zz" "p" = mEx.default_valuation :=
  ⟨by decide, (get_valuation_lenient mEx "zz" "p").2.1 (by decide)⟩

/-- Membership after the make_relation_symmetric loop. -/
theorem symLoop_mem (a b : String) :
    ∀ snap cur : List (String × String),
      ((a, b) ∈ symLoop snap cur ↔ (a, b) ∈ cur ∨ (b, a) ∈ snap) := by
  intro snap
  induction snap with
  | nil => intro cur; simp [symLoop]
  | cons q rest ih =>
      intro cur
      obtain ⟨w1, w2⟩ := q
      rw [symLoop, ih]
      by_cases h : cur.contains (w2, w1) = true
      · rw [if_pos h]
        have hmem : (w2, w1) ∈ cur := (list_contains_iff _ _).mp h
        simp only [List.mem_cons, Prod.mk.injEq]
        constructor
        · rintro (h1 | h2)
          · exact Or.inl h1
          · exact Or.inr (Or.inr h2)
        · rintro (h1 | ⟨hb, ha⟩ | h3)
          · exact Or.inl h1
          · subst hb; subst ha; exact Or.inl hmem
          · exact Or.inr h3
      · rw [if_neg h]
        simp only [List.mem_append, List.mem_singleton, List.mem_cons, Prod.mk.injEq]
        tauto

/-- C6: make_relation_symmetric replaces the relation with exactly
R ∪ R⁻¹, computed over the call-time snapshot of R. -/
theorem make_relation_symmetric_exact (m : KripkeModel) (p : String × String) :
    p ∈ (make_relation_symmetric m).R ↔ p ∈ m.R ∨ (p.2, p.1) ∈ m.R := by
  obtain ⟨a, b⟩ := p
  simpa [make_relation_symmetric] using symLoop_mem a b m.R m.R

/-- C4: the snapshot round trip from_dict (to_dict m) preserves the
Worlds set, the Relation set, the Valuation map and DefaultValuation of
every model (including the empty one), and a snapshot with the
default_valuation field absent loads with default false. -/
theorem snapshot_roundtrip_lossless :
    (∀ m : KripkeModel,
      (∀ x, x ∈ (from_dict (to_dict m)).W ↔ x ∈ m.W) ∧
      (∀ p, p ∈ (from_dict (to_dict m)).R ↔ p ∈ m.R) ∧
      (from_dict (to_dict m)).V = m.V ∧
      (from_dict (to_dict m)).default_valuation = m.default_valuation) ∧
    (∀ s : Snapshot, s.default_valuation = none →
      (from_dict s).default_valuation = false) := by
  constructor
  · intro m
    refine ⟨?_, ?_, rfl, rfl⟩
    · intro x
      simpa [from_dict, to_dict] using pySet_mem m.W x
    · intro p
      simpa [from_dict, to_dict] using pySet_mem m.R p
  · intro s hs
    simp [from_dict, hs]

theorem snapshot_roundtrip_lossless_app :
    (Snapshot.mk [] [] [] none).default_valuation = none ∧
    (from_dict (Snapshot.mk [] [] [] none)).default_valuation = false :=
  ⟨rfl, snapshot_roundtrip_lossless.2 (Snapshot.mk [] [] [] none) rfl⟩

/-- C2 counterexample: on the model mNoVal, which from_dict builds from
a snapshot whose V lacks the world "a" listed in W, remove_world "a"
raises (the `del V[world]` step) yet has already removed "a" from W and
filtered R: the mutation is partial, not atomic. -/
theorem remove_world_not_atomic_cex :
    (remove_world mNoVal "a").2 = some KError.keyError ∧
    (remove_world mNoVal "a").1.W = [] ∧ mNoVal.W = ["a"] ∧
    (remove_world mNoVal "a").1.R = [] ∧ mNoVal.R = [("a", "a")] := by
  decide

/-- C2 amended: on every model in which each world of W has a valuation
entry (the invariant add_world maintains, which from_dict snapshots may
break), remove_world is atomic: on a present world it succeeds and
removes the world, every relation pair mentioning it and its valuation
entry; on an absent world it raises NotFound with the model unchanged. -/
theorem remove_world_atomic (m : KripkeModel) (id : String)
    (hVW : ∀ w ∈ m.W, (dict_get m.V w).isSome = true) :
    (id ∈ m.W →
      (remove_world m id).2 = none ∧
      (∀ x, x ∈ (remove_world m id).1.W ↔ x ∈ m.W ∧ x ≠ id) ∧
      (∀ p : String × String,
        p ∈ (remove_world m id).1.R ↔ p ∈ m.R ∧ p.1 ≠ id ∧ p.2 ≠ id) ∧
      (∀ e, e ∈ (remove_world m id).1.V ↔ e ∈ m.V ∧ e.1 ≠ id)) ∧
    (id ∉ m.W → remove_world m id = (m, some KError.notFound)) := by
  constructor
  · intro hid
    have hv : (dict_get m.V id).isSome = true := hVW id hid
    refine ⟨?_, ?_, ?_, ?_⟩
    · simp [remove_world, hid, hv]
    · intro x
      simp [remove_world, hid, hv, List.mem_filter, bne_iff_ne]
    · intro p
      simp [remove_world, hid, hv, List.mem_filter, bne_iff_ne]
    · intro e
      simp [remove_world, hid, hv, List.mem_filter, bne_iff_ne]
  · intro hid
    simp [remove_world, hid]

theorem remove_world_atomic_app :
    (∀ w ∈ mKeyed.W, (dict_get mKeyed.V w).isSome = true) ∧
    (remove_world mKeyed "a").2 = none :=
  ⟨by decide, ((remove_world_atomic mKeyed "a" (by decide)).1 (by decide)).1⟩

/-- The search loop returns false on an empty stack, with any fuel. -/
theorem reachLoop_nil (R : List (String × String)) (target : String)
    (maxSteps : Nat) (visited : List String) :
    ∀ fuel, reachLoop R target maxSteps fuel [] visited = false := by
  intro fuel
  cases fuel <;> simp [reachLoop]

/-- Expansion from a node with no outgoing relation edge pushes nothing. -/
theorem reachExpand_no_edges (R : List (String × String)) (current : String)
    (steps : Nat) (h : ∀ p ∈ R, p.1 ≠ current) :
    ∀ stack visited, reachExpand R current steps stack visited = (stack, visited) := by
  unfold reachExpand
  induction R with
  | nil => intro stack visited; simp
  | cons q rest ih =>
      intro stack visited
      rw [List.foldl_cons]
      have hq : (q.1 == current) = false :=
        beq_eq_false_iff_ne.mpr (h q (List.mem_cons_self q rest))
      rw [hq]
      simp only [Bool.false_and, if_false]
      exact ih (fun p hp => h p (List.mem_cons_of_mem q hp)) stack visited

/-- C9 amended: is_world_reachable never raises; with start = target it
returns true for any bound and any model (even one whose worlds are
unknown), and when the model passes validate_model (so no relation edge
leaves an unknown world), a start absent from W distinct from the target
yields false. Without the validation hypothesis the second part is
false: see the counterexample. -/
theorem is_world_reachable_foreign_start (m : KripkeModel)
    (start target : String) (maxSteps : Nat) :
    (start = target → is_world_reachable m start target maxSteps = true) ∧
    (validate_model m = true → start ∉ m.W → start ≠ target →
      is_world_reachable m start target maxSteps = false) := by
  constructor
  · intro h
    subst h
    rw [is_world_reachable, show m.R.length + 2 = (m.R.length + 1) + 1 from rfl]
    simp [reachLoop]
  · intro hv hs hne
    rw [is_world_reachable, show m.R.length + 2 = (m.R.length + 1) + 1 from rfl]
    have hedges : ∀ p ∈ m.R, p.1 ≠ start := by
      intro p hp heq
      rw [validate_model, Bool.and_eq_true] at hv
      have h1 := List.all_eq_true.mp hv.1 p hp
      rw [Bool.and_eq_true] at h1
      exact hs (heq ▸ (list_contains_iff _ _).mp h1.1)
    rw [reachLoop]
    have hbeq : (start == target) = false := beq_eq_false_iff_ne.mpr hne
    rw [hbeq]
    by_cases hms : maxSteps ≤ 0
    · simp [hms, reachLoop_nil]
    · simp only [Bool.false_eq_true, if_false, hms]
      rw [reachExpand_no_edges m.R start 0 hedges [] []]
      simp [reachLoop_nil]

theorem is_world_reachable_foreign_start_app :
    (validate_model mEx = true ∧ "zz" ∉ mEx.W ∧ "zz" ≠ "w1") ∧
    is_world_reachable mEx "zz" "w1" 5 = false :=
  ⟨⟨by decide, by decide, by decide⟩,
   (is_world_reachable_foreign_start mEx "zz" "w1" 5).2
     (by decide) (by decide) (by decide)⟩

/-- C9 counterexample: on a from_dict model whose relation leaves worlds
absent from W, a start outside W distinct from the target still reaches
it, so the unrestricted claim that such a call returns false is wrong. -/
theorem is_world_reachable_foreign_start_cex :
    is_world_reachable mForeign "a" "b" 1 = true ∧
    mForeign.W = [] ∧ "a" ≠ "b" := by
  decide

/-- C3: the bounded search is not complete. In mReachBug the path
s→w→b→t uses 3 edges, yet is_world_reachable with max_steps = 3 returns
false, because the depth-first order reaches b first through s→u→v→b,
marks it visited with the budget exhausted, and the visited set then
blocks the shorter route; with max_steps = 4 the same search finds t. -/
theorem is_world_reachable_misses_short_path :
    is_world_reachable mReachBug "s" "t" 3 = false ∧
    ("s", "w") ∈ mReachBug.R ∧ ("w", "b") ∈ mReachBug.R ∧
    ("b", "t") ∈ mReachBug.R ∧
    is_world_reachable mReachBug "s" "t" 4 = true := by
  decide

/-- The all-worlds dict comprehension succeeds with keys exactly the
iterated world list. -/
theorem evalWorldsList_keys (m : KripkeModel) (f : Formula) :
    ∀ (l : List String) (res : List (String × Bool)),
      evalWorldsList m f l = .ok res → res.map Prod.fst = l := by
  intro l
  induction l with
  | nil =>
      intro res h
      rw [evalWorldsList] at h
      cases h
      simp
  | cons w ws ih =>
      intro res h
      rw [evalWorldsList] at h
      cases he : evaluate_formula m f w with
      | error e => rw [he, except_bind_err] at h; cases h
      | ok b =>
          rw [he, except_bind_ok] at h
          cases hr : evalWorldsList m f ws with
          | error e => rw [hr, except_bind_err] at h; cases h
          | ok rest =>
              rw [hr, except_bind_ok] at h
              cases h
              simp [ih rest hr]

/-- C10: evaluate_formula_in_all_worlds on a model with empty W returns
the empty mapping without raising (no evaluation, hence no InvalidModel
check, happens), and whenever it returns a mapping its keys are exactly
the worlds of the model. -/
theorem evaluate_all_worlds_empty_and_keys (m : KripkeModel) (f : Formula) :
    (m.W = [] → evaluate_formula_in_all_worlds m f = .ok []) ∧
    (∀ res, evaluate_formula_in_all_worlds m f = .ok res →
      res.map Prod.fst = m.W) := by
  constructor
  · intro h
    rw [evaluate_formula_in_all_worlds, h, evalWorldsList]
  · intro res h
    exact evalWorldsList_keys m f m.W res h

theorem evaluate_all_worlds_empty_app :
    (mInvalid.W = [] ∧ validate_model mInvalid = false) ∧
    evaluate_formula_in_all_worlds mInvalid (Formula.prop "p") = .ok [] :=
  ⟨⟨rfl, by decide⟩,
   (evaluate_all_worlds_empty_and_keys mInvalid (Formula.prop "p")).1 rfl⟩

/-- One validated step of evaluate_formula, with the two precondition
checks discharged. -/
theorem evaluate_formula_step (m : KripkeModel) (f : Formula) (w : String)
    (hv : validate_model m = true) (hw : w ∈ m.W) :
    evaluate_formula m f w = (match f with
      | .prop p => .ok (get_valuation m w p)
      | .not φ => (evaluate_formula m φ w).map (fun b => !b)
      | .and φ ψ => do
          let a ← evaluate_formula m φ w
          if a then evaluate_formula m ψ w else .ok false
      | .or φ ψ => do
          let a ← evaluate_formula m φ w
          if a then .ok true else evaluate_formula m ψ w
      | .implies φ ψ => do
          let a ← evaluate_formula m φ w
          if !a then .ok true else evaluate_formula m ψ w
      | .box φ => evalBoxAux (fun x => evaluate_formula m φ x) (get_accessible_worlds m w)
      | .diamond φ => evalDiamondAux (fun x => evaluate_formula m φ x) (get_accessible_worlds m w)) := by
  conv_lhs => rw [evaluate_formula.eq_def]
  simp [hv, hw]

/-- One step of the reference satisfaction relation. -/
theorem kripkeSat_step (m : KripkeModel) (f : Formula) (w : String) :
    kripkeSat m f w = (match f with
      | .prop p => get_valuation m w p
      | .not φ => !kripkeSat m φ w
      | .and φ ψ => kripkeSat m φ w && kripkeSat m ψ w
      | .or φ ψ => kripkeSat m φ w || kripkeSat m ψ w
      | .implies φ ψ => !kripkeSat m φ w || kripkeSat m ψ w
      | .box φ => (get_accessible_worlds m w).all (fun x => kripkeSat m φ x)
      | .diamond φ => (get_accessible_worlds m w).any (fun x => kripkeSat m φ x)) := by
  conv_lhs => rw [kripkeSat.eq_def]

/-- In a model passing validate_model, accessible worlds are worlds. -/
theorem accessible_sub_W (m : KripkeModel) (hv : validate_model m = true)
    (w x : String) (hx : x ∈ get_accessible_worlds m w) : x ∈ m.W := by
  unfold get_accessible_worlds at hx
  obtain ⟨p, hp, hpx⟩ := List.mem_map.mp hx
  have hpR : p ∈ m.R := (List.mem_filter.mp hp).1
  rw [validate_model, Bool.and_eq_true] at hv
  have h1 := List.all_eq_true.mp hv.1 p hpR
  rw [Bool.and_eq_true] at h1
  exact hpx ▸ (list_contains_iff _ _).mp h1.2

/-- evalBoxAux agrees with List.all when every evaluation succeeds. -/
theorem evalBoxAux_ok (g : String → Except KError Bool) (s : String → Bool) :
    ∀ l : List String, (∀ x ∈ l, g x = .ok (s x)) →
      evalBoxAux g l = .ok (l.all s) := by
  intro l
  induction l with
  | nil => intro _; simp [evalBoxAux]
  | cons x xs ih =>
      intro h
      rw [evalBoxAux, h x (List.mem_cons_self x xs), except_bind_ok]
      cases hx : s x
      · simp [List.all_cons, hx]
      · simp [List.all_cons, hx,
          ih (fun y hy => h y (List.mem_cons_of_mem x hy))]

/-- evalDiamondAux agrees with List.any when every evaluation succeeds. -/
theorem evalDiamondAux_ok (g : String → Except KError Bool) (s : String → Bool) :
    ∀ l : List String, (∀ x ∈ l, g x = .ok (s x)) →
      evalDiamondAux g l = .ok (l.any s) := by
  intro l
  induction l with
  | nil => intro _; simp [evalDiamondAux]
  | cons x xs ih =>
      intro h
      rw [evalDiamondAux, h x (List.mem_cons_self x xs), except_bind_ok]
      cases hx : s x
      · simp [List.any_cons, hx,
          ih (fun y hy => h y (List.mem_cons_of_mem x hy))]
      · simp [List.any_cons, hx]

/-- C1: on a model passing validate_model and a world of W,
evaluate_formula returns exactly standard Kripke satisfaction for every
formula shape: the stored or default valuation for propositions, the
truth-functional connectives on the recursive results, Box as a
universal (vacuously true) and Diamond as an existential (vacuously
false) quantification over the accessible worlds. -/
theorem evaluate_formula_kripke (m : KripkeModel) (f : Formula) (w : String)
    (hv : validate_model m = true) (hw : w ∈ m.W) :
    evaluate_formula m f w = .ok (kripkeSat m f w) := by
  induction f generalizing w with
  | prop p =>
      rw [evaluate_formula_step m _ w hv hw, kripkeSat_step]
  | not φ ih =>
      rw [evaluate_formula_step m _ w hv hw, kripkeSat_step]
      show (evaluate_formula m φ w).map (fun b => !b) = .ok (!kripkeSat m φ w)
      rw [ih w hw]
      rfl
  | and φ ψ ihφ ihψ =>
      rw [evaluate_formula_step m _ w hv hw, kripkeSat_step]
      show (do
          let a ← evaluate_formula m φ w
          if a then evaluate_formula m ψ w else .ok false) =
        .ok (kripkeSat m φ w && kripkeSat m ψ w)
      rw [ihφ w hw, except_bind_ok]
      cases h : kripkeSat m φ w
      · simp
      · simp [ihψ w hw]
  | or φ ψ ihφ ihψ =>
      rw [evaluate_formula_step m _ w hv hw, kripkeSat_step]
      show (do
          let a ← evaluate_formula m φ w
          if a then .ok true else evaluate_formula m ψ w) =
        .ok (kripkeSat m φ w || kripkeSat m ψ w)
      rw [ihφ w hw, except_bind_ok]
      cases h : kripkeSat m φ w
      · simp [ihψ w hw]
      · simp
  | implies φ ψ ihφ ihψ =>
      rw [evaluate_formula_step m _ w hv hw, kripkeSat_step]
      show (do
          let a ← evaluate_formula m φ w
          if !a then .ok true else evaluate_formula m ψ w) =
        .ok (!kripkeSat m φ w || kripkeSat m ψ w)
      rw [ihφ w hw, except_bind_ok]
      cases h : kripkeSat m φ w
      · simp
      · simp [ihψ w hw]
  | box φ ih =>
      rw [evaluate_formula_step m _ w hv hw, kripkeSat_step]
      show evalBoxAux (fun x => evaluate_formula m φ x) (get_accessible_worlds m w) =
        .ok ((get_accessible_worlds m w).all (fun x => kripkeSat m φ x))
      exact evalBoxAux_ok _ _ _
        (fun x hx => ih x (accessible_sub_W m hv w x hx))
  | diamond φ ih =>
      rw [evaluate_formula_step m _ w hv hw, kripkeSat_step]
      show evalDiamondAux (fun x => evaluate_formula m φ x) (get_accessible_worlds m w) =
        .ok ((get_accessible_worlds m w).any (fun x => kripkeSat m φ x))
      exact evalDiamondAux_ok _ _ _
        (fun x hx => ih x (accessible_sub_W m hv w x hx))

theorem evaluate_formula_kripke_app :
    (validate_model mEx = true ∧ "w1" ∈ mEx.W) ∧
    evaluate_formula mEx (Formula.box (Formula.prop "p")) "w1" =
      .ok (kripkeSat mEx (Formula.box (Formula.prop "p")) "w1") :=
  ⟨⟨by decide, by decide⟩,
   evaluate_formula_kripke mEx (Formula.box (Formula.prop "p")) "w1"
     (by decide) (by decide)⟩

/-- C8: evaluate_formula is fail-fast: on a model failing validate_model
it returns the InvalidModel error for every formula shape and world, and
on a valid model with a world outside W it returns the UnknownWorld
error for every formula shape; being a pure function it leaves the model
unchanged in both cases. -/
theorem evaluate_formula_fail_fast (m : KripkeModel) (f : Formula) (w : String) :
    (validate_model m = false →
      evaluate_formula m f w = .error KError.invalidModel) ∧
    (validate_model m = true → w ∉ m.W →
      evaluate_formula m f w = .error KError.unknownWorld) := by
  constructor
  · intro h
    rw [evaluate_formula.eq_def]
    simp [h]
  · intro hv hw
    rw [evaluate_formula.eq_def]
    simp [hv, hw]

theorem evaluate_formula_fail_fast_app :
    (validate_model mInvalid = false ∧
      evaluate_formula mInvalid (Formula.prop "p") "w" = .error KError.invalidModel) ∧
    (validate_model mEx = true ∧ "zz" ∉ mEx.W ∧
      evaluate_formula mEx (Formula.prop "p") "zz" = .error KError.unknownWorld) :=
  ⟨⟨by decide, (evaluate_formula_fail_fast mInvalid (Formula.prop "p") "w").1 (by decide)⟩,
   ⟨by decide, by decide,
    (evaluate_formula_fail_fast mEx (Formula.prop "p") "zz").2 (by decide) (by decide)⟩⟩

/-- A duplicate-free list stays duplicate-free when appending a fresh
element. -/
theorem nodup_append_singleton {α : Type} (l : List α) (a : α)
    (hl : l.Nodup) (ha : a ∉ l) : (l ++ [a]).Nodup := by
  rw [List.nodup_append]
  refine ⟨hl, List.nodup_singleton a, ?_⟩
  intro x hx hx1
  rw [List.mem_singleton] at hx1
  exact ha (hx1 ▸ hx)

/-- The inner transitive pass only adds pairs. -/
theorem transInner_mono (w1 w2 : String) :
    ∀ (snap cur : List (String × String)) (ch : Bool) (p : String × String),
      p ∈ cur → p ∈ (transInner w1 w2 snap cur ch).1 := by
  intro snap
  induction snap with
  | nil => intro cur ch p hp; simpa [transInner] using hp
  | cons q rest ih =>
      intro cur ch p hp
      obtain ⟨w3, w4⟩ := q
      rw [transInner]
      by_cases h : (w2 == w3 && !cur.contains (w1, w4)) = true
      · rw [if_pos h]
        exact ih (cur ++ [(w1, w4)]) true p (List.mem_append_left _ hp)
      · rw [if_neg h]
        exact ih cur ch p hp

/-- Every pair produced by the inner pass is either old or a composite
(w1, w4) justified by a snapshot pair (w2, w4). -/
theorem transInner_sound (w1 w2 : String) :
    ∀ (snap cur : List (String × String)) (ch : Bool) (p : String × String),
      p ∈ (transInner w1 w2 snap cur ch).1 →
      p ∈ cur ∨ ∃ w4, p = (w1, w4) ∧ (w2, w4) ∈ snap := by
  intro snap
  induction snap with
  | nil =>
      intro cur ch p hp
      rw [transInner] at hp
      exact Or.inl hp
  | cons q rest ih =>
      intro cur ch p hp
      obtain ⟨w3, w4⟩ := q
      rw [transInner] at hp
      by_cases h : (w2 == w3 && !cur.contains (w1, w4)) = true
      · rw [if_pos h] at hp
        have h23 : w2 = w3 := by
          rw [Bool.and_eq_true] at h
          exact beq_iff_eq.mp h.1
        rcases ih (cur ++ [(w1, w4)]) true p hp with hin | ⟨w5, hpe, hw5⟩
        · rcases List.mem_append.mp hin with hc | hone
          · exact Or.inl hc
          · rw [List.mem_singleton] at hone
            exact Or.inr ⟨w4, hone, by rw [h23]; exact List.mem_cons_self _ _⟩
        · exact Or.inr ⟨w5, hpe, List.mem_cons_of_mem _ hw5⟩
      · rw [if_neg h] at hp
        rcases ih cur ch p hp with hc | ⟨w5, hpe, hw5⟩
        · exact Or.inl hc
        · exact Or.inr ⟨w5, hpe, List.mem_cons_of_mem _ hw5⟩

/-- Once the changed flag is set it stays set through the inner pass. -/
theorem transInner_flag_mono (w1 w2 : String) :
    ∀ snap cur : List (String × String),
      (transInner w1 w2 snap cur true).2 = true := by
  intro snap
  induction snap with
  | nil => intro cur; rw [transInner]
  | cons q rest ih =>
      intro cur
      obtain ⟨w3, w4⟩ := q
      rw [transInner]
      by_cases h : (w2 == w3 && !cur.contains (w1, w4)) = true
      · rw [if_pos h]; exact ih _
      · rw [if_neg h]; exact ih _

/-- When the inner pass reports no change it added nothing and every
composite through (w1, w2) and a snapshot pair was already present. -/
theorem transInner_false (w1 w2 : String) :
    ∀ (snap cur : List (String × String)) (ch : Bool),
      (transInner w1 w2 snap cur ch).2 = false →
      (transInner w1 w2 snap cur ch).1 = cur ∧
      ∀ w3 w4, (w3, w4) ∈ snap → w2 = w3 → (w1, w4) ∈ cur := by
  intro snap
  induction snap with
  | nil =>
      intro cur ch _
      rw [transInner]
      exact ⟨rfl, by intro w3 w4 h; cases h⟩
  | cons q rest ih =>
      intro cur ch hfl
      obtain ⟨w3, w4⟩ := q
      rw [transInner] at hfl
      by_cases h : (w2 == w3 && !cur.contains (w1, w4)) = true
      · rw [if_pos h] at hfl
        rw [transInner_flag_mono w1 w2 rest (cur ++ [(w1, w4)])] at hfl
        cases hfl
      · rw [if_neg h] at hfl
        obtain ⟨h1, h2⟩ := ih cur ch hfl
        constructor
        · rw [transInner, if_neg h]
          exact h1
        · intro w5 w6 hmem h25
          rcases List.mem_cons.mp hmem with he | hr
          · obtain ⟨h5, h6⟩ := Prod.mk.injEq .. ▸ he
            subst h5; subst h6
            by_cases hcont : cur.contains (w1, w6) = true
            · exact (list_contains_iff _ _).mp hcont
            · exfalso
              apply h
              rw [Bool.and_eq_true]
              refine ⟨beq_iff_eq.mpr h25, ?_⟩
              rw [Bool.eq_false_iff.mpr hcont]
              rfl
          · exact h2 w5 w6 hr h25

/-- The inner pass never shrinks the relation. -/
theorem transInner_len (w1 w2 : String) :
    ∀ (snap cur : List (String × String)) (ch : Bool),
      cur.length ≤ (transInner w1 w2 snap cur ch).1.length := by
  intro snap
  induction snap with
  | nil => intro cur ch; rw [transInner]
  | cons q rest ih =>
      intro cur ch
      obtain ⟨w3, w4⟩ := q
      rw [transInner]
      by_cases h : (w2 == w3 && !cur.contains (w1, w4)) = true
      · rw [if_pos h]
        have := ih (cur ++ [(w1, w4)]) true
        simp only [List.length_append, List.length_singleton] at this
        omega
      · rw [if_neg h]
        exact ih cur ch

/-- An inner pass that sets the changed flag strictly grew the relation. -/
theorem transInner_len_lt (w1 w2 : String) :
    ∀ snap cur : List (String × String),
      (transInner w1 w2 snap cur false).2 = true →
      cur.length < (transInner w1 w2 snap cur false).1.length := by
  intro snap
  induction snap with
  | nil =>
      intro cur h
      rw [transInner] at h
      cases h
  | cons q rest ih =>
      intro cur h
      obtain ⟨w3, w4⟩ := q
      rw [transInner] at h ⊢
      by_cases hc : (w2 == w3 && !cur.contains (w1, w4)) = true
      · rw [if_pos hc]
        have := transInner_len w1 w2 rest (cur ++ [(w1, w4)]) true
        simp only [List.length_append, List.length_singleton] at this
        omega
      · rw [if_neg hc] at h ⊢
        exact ih cur h

/-- The inner pass preserves freedom from duplicates. -/
theorem transInner_nodup (w1 w2 : String) :
    ∀ (snap cur : List (String × String)) (ch : Bool),
      cur.Nodup → (transInner w1 w2 snap cur ch).1.Nodup := by
  intro snap
  induction snap with
  | nil => intro cur ch h; rw [transInner]; exact h
  | cons q rest ih =>
      intro cur ch hnd
      obtain ⟨w3, w4⟩ := q
      rw [transInner]
      by_cases h : (w2 == w3 && !cur.contains (w1, w4)) = true
      · rw [if_pos h]
        apply ih
        apply nodup_append_singleton cur (w1, w4) hnd
        intro hmem
        rw [Bool.and_eq_true] at h
        rw [(list_contains_iff _ _).mpr hmem] at h
        cases h.2
      · rw [if_neg h]
        exact ih cur ch hnd

/-- Pairs produced by the inner pass stay inside any transitive
superset containing the current relation, the snapshot and (w1, w2). -/
theorem transInner_sub_T (w1 w2 : String) (T : String × String → Prop)
    (hT : ∀ a b c, T (a, b) → T (b, c) → T (a, c)) :
    ∀ (snap cur : List (String × String)) (ch : Bool),
      (∀ p ∈ cur, T p) → (∀ p ∈ snap, T p) → T (w1, w2) →
      ∀ p ∈ (transInner w1 w2 snap cur ch).1, T p := by
  intro snap
  induction snap with
  | nil =>
      intro cur ch hcur _ _ p hp
      rw [transInner] at hp
      exact hcur p hp
  | cons q rest ih =>
      intro cur ch hcur hsnap h12 p hp
      obtain ⟨w3, w4⟩ := q
      rw [transInner] at hp
      by_cases h : (w2 == w3 && !cur.contains (w1, w4)) = true
      · rw [if_pos h] at hp
        have h23 : w2 = w3 := by
          rw [Bool.and_eq_true] at h
          exact beq_iff_eq.mp h.1
        have hnew : T (w1, w4) := by
          apply hT w1 w2 w4 h12
          rw [h23]
          exact hsnap (w3, w4) (List.mem_cons_self _ _)
        refine ih (cur ++ [(w1, w4)]) true ?_ ?_ h12 p hp
        · intro q hq
          rcases List.mem_append.mp hq with hq1 | hq2
          · exact hcur q hq1
          · rw [List.mem_singleton] at hq2
            exact hq2 ▸ hnew
        · intro q hq
          exact hsnap q (List.mem_cons_of_mem _ hq)
      · rw [if_neg h] at hp
        exact ih cur ch hcur (fun q hq => hsnap q (List.mem_cons_of_mem _ hq)) h12 p hp

/-- Endpoint bound for the inner pass: first components stay in F,
second components stay in S. -/
theorem transInner_bounds (w1 w2 : String) (F S : Finset String) (hw1 : w1 ∈ F) :
    ∀ (snap cur : List (String × String)) (ch : Bool),
      (∀ p ∈ cur, p.1 ∈ F ∧ p.2 ∈ S) →
      (∀ p ∈ snap, p.2 ∈ S) →
      ∀ p ∈ (transInner w1 w2 snap cur ch).1, p.1 ∈ F ∧ p.2 ∈ S := by
  intro snap
  induction snap with
  | nil =>
      intro cur ch hcur _ p hp
      rw [transInner] at hp
      exact hcur p hp
  | cons q rest ih =>
      intro cur ch hcur hsnap p hp
      obtain ⟨w3, w4⟩ := q
      rw [transInner] at hp
      by_cases h : (w2 == w3 && !cur.contains (w1, w4)) = true
      · rw [if_pos h] at hp
        refine ih (cur ++ [(w1, w4)]) true ?_ ?_ p hp
        · intro q hq
          rcases List.mem_append.mp hq with hq1 | hq2
          · exact hcur q hq1
          · rw [List.mem_singleton] at hq2
            subst hq2
            exact ⟨hw1, hsnap (w3, w4) (List.mem_cons_self _ _)⟩
        · intro q hq
          exact hsnap q (List.mem_cons_of_mem _ hq)
      · rw [if_neg h] at hp
        exact ih cur ch hcur (fun q hq => hsnap q (List.mem_cons_of_mem _ hq)) p hp

/-- Unfolding equation for one outer-loop element. -/
theorem transOuter_cons (w1 w2 : String) (rest cur : List (String × String)) (ch : Bool) :
    transOuter ((w1, w2) :: rest) cur ch =
      transOuter rest (transInner w1 w2 cur cur ch).1 (transInner w1 w2 cur cur ch).2 := by
  rw [transOuter]

/-- The outer pass only adds pairs. -/
theorem transOuter_mono :
    ∀ (snap cur : List (String × String)) (ch : Bool) (p : String × String),
      p ∈ cur → p ∈ (transOuter snap cur ch).1 := by
  intro snap
  induction snap with
  | nil => intro cur ch p hp; rw [transOuter]; exact hp
  | cons q rest ih =>
      intro cur ch p hp
      obtain ⟨w1, w2⟩ := q
      rw [transOuter_cons]
      exact ih _ _ p (transInner_mono w1 w2 cur cur ch p hp)

/-- Once the changed flag is set it stays set through the outer pass. -/
theorem transOuter_flag_mono :
    ∀ snap cur : List (String × String), (transOuter snap cur true).2 = true := by
  intro snap
  induction snap with
  | nil => intro cur; rw [transOuter]
  | cons q rest ih =>
      intro cur
      obtain ⟨w1, w2⟩ := q
      rw [transOuter_cons, transInner_flag_mono w1 w2 cur cur]
      exact ih _

/-- A full pass that reports no change left the relation untouched, and
the untouched relation is then closed under composition. -/
theorem transOuter_false :
    ∀ (snap cur : List (String × String)) (ch : Bool),
      (transOuter snap cur ch).2 = false →
      (transOuter snap cur ch).1 = cur ∧
      ∀ a b, (a, b) ∈ snap → ∀ c d, (c, d) ∈ cur → b = c → (a, d) ∈ cur := by
  intro snap
  induction snap with
  | nil =>
      intro cur ch _
      rw [transOuter]
      exact ⟨rfl, by intro a b h; cases h⟩
  | cons q rest ih =>
      intro cur ch hfl
      obtain ⟨w1, w2⟩ := q
      rw [transOuter_cons] at hfl
      cases hr2 : (transInner w1 w2 cur cur ch).2 with
      | true =>
          rw [hr2, transOuter_flag_mono] at hfl
          cases hfl
      | false =>
          obtain ⟨hfix, hcomp⟩ := transInner_false w1 w2 cur cur ch hr2
          rw [hr2, hfix] at hfl
          obtain ⟨h1, h2⟩ := ih cur false hfl
          constructor
          · rw [transOuter_cons, hr2, hfix]
            exact h1
          · intro a b hab c d hcd hbc
            rcases List.mem_cons.mp hab with he | hr
            · have ha : a = w1 := congrArg Prod.fst he
              have hb : b = w2 := congrArg Prod.snd he
              subst ha; subst hb
              exact hcomp c d hcd hbc
            · exact h2 a b hr c d hcd hbc

/-- The outer pass never shrinks the relation. -/
theorem transOuter_len :
    ∀ (snap cur : List (String × String)) (ch : Bool),
      cur.length ≤ (transOuter snap cur ch).1.length := by
  intro snap
  induction snap with
  | nil => intro cur ch; rw [transOuter]
  | cons q rest ih =>
      intro cur ch
      obtain ⟨w1, w2⟩ := q
      rw [transOuter_cons]
      exact le_trans (transInner_len w1 w2 cur cur ch) (ih _ _)

/-- An outer pass that sets the changed flag strictly grew the relation. -/
theorem transOuter_len_lt :
    ∀ snap cur : List (String × String),
      (transOuter snap cur false).2 = true →
      cur.length < (transOuter snap cur false).1.length := by
  intro snap
  induction snap with
  | nil =>
      intro cur h
      rw [transOuter] at h
      cases h
  | cons q rest ih =>
      intro cur h
      obtain ⟨w1, w2⟩ := q
      rw [transOuter_cons] at h ⊢
      cases hr2 : (transInner w1 w2 cur cur false).2 with
      | true =>
          calc cur.length < (transInner w1 w2 cur cur false).1.length :=
                transInner_len_lt w1 w2 cur cur hr2
            _ ≤ _ := transOuter_len rest _ true
      | false =>
          obtain ⟨hfix, _⟩ := transInner_false w1 w2 cur cur false hr2
          rw [hr2, hfix] at h
          rw [hfix]
          exact ih cur h

/-- The outer pass preserves freedom from duplicates. -/
theorem transOuter_nodup :
    ∀ (snap cur : List (String × String)) (ch : Bool),
      cur.Nodup → (transOuter snap cur ch).1.Nodup := by
  intro snap
  induction snap with
  | nil => intro cur ch h; rw [transOuter]; exact h
  | cons q rest ih =>
      intro cur ch hnd
      obtain ⟨w1, w2⟩ := q
      rw [transOuter_cons]
      exact ih _ _ (transInner_nodup w1 w2 cur cur ch hnd)

/-- Pairs produced by the outer pass stay inside any transitive superset
of the snapshot and the current relation. -/
theorem transOuter_sub_T (T : String × String → Prop)
    (hT : ∀ a b c, T (a, b) → T (b, c) → T (a, c)) :
    ∀ (snap cur : List (String × String)) (ch : Bool),
      (∀ p ∈ snap, T p) → (∀ p ∈ cur, T p) →
      ∀ p ∈ (transOuter snap cur ch).1, T p := by
  intro snap
  induction snap with
  | nil =>
      intro cur ch _ hcur p hp
      rw [transOuter] at hp
      exact hcur p hp
  | cons q rest ih =>
      intro cur ch hsnap hcur p hp
      obtain ⟨w1, w2⟩ := q
      rw [transOuter_cons] at hp
      have hinner : ∀ p ∈ (transInner w1 w2 cur cur ch).1, T p :=
        transInner_sub_T w1 w2 T hT cur cur ch hcur hcur
          (hsnap (w1, w2) (List.mem_cons_self _ _))
      exact ih _ _ (fun q hq => hsnap q (List.mem_cons_of_mem _ hq)) hinner p hp

/-- Endpoint bound for the outer pass. -/
theorem transOuter_bounds (F S : Finset String) :
    ∀ (snap cur : List (String × String)) (ch : Bool),
      (∀ p ∈ snap, p.1 ∈ F) →
      (∀ p ∈ cur, p.1 ∈ F ∧ p.2 ∈ S) →
      ∀ p ∈ (transOuter snap cur ch).1, p.1 ∈ F ∧ p.2 ∈ S := by
  intro snap
  induction snap with
  | nil =>
      intro cur ch _ hcur p hp
      rw [transOuter] at hp
      exact hcur p hp
  | cons q rest ih =>
      intro cur ch hsnap hcur p hp
      obtain ⟨w1, w2⟩ := q
      rw [transOuter_cons] at hp
      have hinner : ∀ p ∈ (transInner w1 w2 cur cur ch).1, p.1 ∈ F ∧ p.2 ∈ S :=
        transInner_bounds w1 w2 F S (hsnap (w1, w2) (List.mem_cons_self _ _))
          cur cur ch hcur (fun q hq => (hcur q hq).2)
      exact ih _ _ (fun q hq => hsnap q (List.mem_cons_of_mem _ hq)) hinner p hp

/-- Unfolding equation for one iteration of the while-changed loop. -/
theorem transLoop_succ (fuel : Nat) (cur : List (String × String)) :
    transLoop (fuel + 1) cur =
      if (transOuter cur cur false).2 then transLoop fuel (transOuter cur cur false).1
      else (transOuter cur cur false).1 := by
  rw [transLoop]

/-- A duplicate-free list of pairs with first components in F and second
components in S is no longer than the product card. -/
theorem nodup_length_le_bound (F S : Finset String) (l : List (String × String))
    (hnd : l.Nodup) (hb : ∀ p ∈ l, p.1 ∈ F ∧ p.2 ∈ S) :
    l.length ≤ (F ×ˢ S).card := by
  rw [← List.toFinset_card_of_nodup hnd]
  apply Finset.card_le_card
  intro p hp
  rw [List.mem_toFinset] at hp
  rw [Finset.mem_product]
  exact hb p hp

/-- With enough fuel relative to the pair universe, the while-changed
loop reaches a pass with no additions, and its result contains the
start relation, is closed under composition, and is contained in every
transitive superset of the start relation. -/
theorem transLoop_correct (F S : Finset String) :
    ∀ (fuel : Nat) (cur : List (String × String)),
      cur.Nodup → (∀ p ∈ cur, p.1 ∈ F ∧ p.2 ∈ S) →
      (F ×ˢ S).card < cur.length + fuel →
      (∀ p ∈ cur, p ∈ transLoop fuel cur) ∧
      (∀ a b c, (a, b) ∈ transLoop fuel cur → (b, c) ∈ transLoop fuel cur →
        (a, c) ∈ transLoop fuel cur) ∧
      (∀ T : String × String → Prop,
        (∀ a b c, T (a, b) → T (b, c) → T (a, c)) →
        (∀ p ∈ cur, T p) → ∀ p ∈ transLoop fuel cur, T p) := by
  intro fuel
  induction fuel with
  | zero =>
      intro cur hnd hb hlen
      have := nodup_length_le_bound F S cur hnd hb
      omega
  | succ fuel ih =>
      intro cur hnd hb hlen
      rw [transLoop_succ]
      cases hr2 : (transOuter cur cur false).2 with
      | false =>
          rw [if_neg Bool.false_ne_true]
          obtain ⟨hfix, hcomp⟩ := transOuter_false cur cur false hr2
          rw [hfix]
          refine ⟨fun p hp => hp, ?_, fun T _ hcur p hp => hcur p hp⟩
          intro a b c hab hbc
          exact hcomp a b hab b c hbc rfl
      | true =>
          rw [if_pos rfl]
          have hmono := transOuter_mono cur cur false
          have hnd2 := transOuter_nodup cur cur false hnd
          have hb2 := transOuter_bounds F S cur cur false (fun p hp => (hb p hp).1) hb
          have hlt := transOuter_len_lt cur cur hr2
          obtain ⟨ha, htr, hmin⟩ :=
            ih (transOuter cur cur false).1 hnd2 hb2 (by omega)
          refine ⟨fun p hp => ha p (hmono p hp), htr, ?_⟩
          intro T hT hcur p hp
          exact hmin T hT (transOuter_sub_T T hT cur cur false hcur hcur) p hp

/-- C5: on a model whose relation endpoints lie in W (and whose relation
list, like a Python set, has no duplicates), make_relation_transitive
terminates with the transitive closure: the result contains the input
relation, is closed under composition, and is contained in every
transitive superset of the input relation. -/
theorem make_relation_transitive_closure (m : KripkeModel)
    (hnd : m.R.Nodup) (_hW : ∀ p ∈ m.R, p.1 ∈ m.W ∧ p.2 ∈ m.W) :
    (∀ p ∈ m.R, p ∈ (make_relation_transitive m).R) ∧
    (∀ a b c, (a, b) ∈ (make_relation_transitive m).R →
      (b, c) ∈ (make_relation_transitive m).R →
      (a, c) ∈ (make_relation_transitive m).R) ∧
    (∀ T : String × String → Prop,
      (∀ a b c, T (a, b) → T (b, c) → T (a, c)) →
      (∀ p ∈ m.R, T p) → ∀ p ∈ (make_relation_transitive m).R, T p) := by
  have hF : ∀ p ∈ m.R,
      p.1 ∈ (m.R.map Prod.fst).toFinset ∧ p.2 ∈ (m.R.map Prod.snd).toFinset := by
    intro p hp
    constructor
    · rw [List.mem_toFinset]
      exact List.mem_map_of_mem Prod.fst hp
    · rw [List.mem_toFinset]
      exact List.mem_map_of_mem Prod.snd hp
  have hcard : ((m.R.map Prod.fst).toFinset ×ˢ (m.R.map Prod.snd).toFinset).card <
      m.R.length + (m.R.length * m.R.length + 1) := by
    have h1 : (m.R.map Prod.fst).toFinset.card ≤ m.R.length := by
      have := List.toFinset_card_le (m.R.map Prod.fst)
      simpa using this
    have h2 : (m.R.map Prod.snd).toFinset.card ≤ m.R.length := by
      have := List.toFinset_card_le (m.R.map Prod.snd)
      simpa using this
    rw [Finset.card_product]
    have := Nat.mul_le_mul h1 h2
    omega
  have hmain := transLoop_correct (m.R.map Prod.fst).toFinset
    (m.R.map Prod.snd).toFinset (m.R.length * m.R.length + 1) m.R hnd hF hcard
  simpa [make_relation_transitive] using hmain

theorem make_relation_transitive_closure_app :
    (mTrans.R.Nodup ∧ (∀ p ∈ mTrans.R, p.1 ∈ mTrans.W ∧ p.2 ∈ mTrans.W)) ∧
    (∀ p ∈ mTrans.R, p ∈ (make_relation_transitive mTrans).R) :=
  ⟨⟨by decide, by decide⟩,
   (make_relation_transitive_closure mTrans (by decide) (by decide)).1⟩
